import Mathlib

/-!
Verification of the Yahtzee scoring engine (`src/Rules.js`).

A hand is a list of die values (natural numbers). `Rule.sum`, `Rule.freq`
and `Rule.count` embed the helpers on the JS `Rule` base class; the six
rule strategies are the constructors of `GameRule`, and `evalRoll`
embeds the `evalRoll` arrow function of each subclass.  JS particulars kept:

* `Rule.sum` is `dice.reduce((prev, curr) => prev + curr)` with no
  initial value, which throws on an empty array; it is embedded as an
  `Option`-valued left fold that is `none` exactly on `[]`.
* `Rule.freq` builds a `Map` by iterating the dice in order, so its
  values come out in first-insertion order; `Rule.keys` reproduces that
  key order (first occurrence of each distinct value) and `Rule.freq`
  maps each key to its number of occurrences, exactly the final `Map`
  contents.  The JS `Set` used by the straight rules has the same
  element order, so `Rule.keys` also embeds `new Set(dice)`.
* `Yahtzee.evalRoll` reads `this.freq(dice)[0] === 5`; indexing `[0]`
  of an empty array yields `undefined`, which is not `=== 5`, so it is
  embedded as `(Rule.freq dice).head? = some 5`.
-/

set_option maxRecDepth 4000
set_option linter.unusedVariables false

namespace YahtzeeGame

namespace Rule

/-- JS `Rule.sum`: `dice.reduce((prev, curr) => prev + curr)` — no initial
value, so it throws on `[]`; embedded as `none` there. -/
def sum : List Nat → Option Nat
  | [] => none
  | d :: ds => some (ds.foldl (· + ·) d)

/-- Keys of the JS `Map` built by `Rule.freq` (equally: the elements of
`new Set(dice)`), in first-insertion order. -/
def keys (dice : List Nat) : List Nat :=
  dice.foldl (fun ks d => if d ∈ ks then ks else ks ++ [d]) []

/-- JS `Rule.freq`: the array of occurrence counts of the distinct die
values, in first-insertion order of the values. -/
def freq (dice : List Nat) : List Nat :=
  (keys dice).map fun v => (dice.filter fun d => d == v).length

/-- JS `Rule.count`: `dice.filter((d) => d === val).length`. -/
def count (dice : List Nat) (val : Nat) : Nat :=
  (dice.filter fun d => d == val).length

end Rule

/-- The six rule strategies (JS subclasses of `Rule`), each carrying its
configuration field (`val`, `count` or `score`; the `description` string
is presentation-only and not modelled). -/
inductive GameRule where
  | TotalOneNumber (val : Nat)
  | SumDistro (count : Nat)
  | FullHouse (score : Nat)
  | SmallStraight (score : Nat)
  | LargeStraight (score : Nat)
  | Yahtzee (score : Nat)
  deriving DecidableEq

/-- The `evalRoll` arrow function of each rule subclass. -/
def evalRoll : GameRule → List Nat → Option Nat
  | .TotalOneNumber val, dice => some (val * Rule.count dice val)
  | .SumDistro cnt, dice =>
      if (Rule.freq dice).any fun c => decide (cnt ≤ c) then Rule.sum dice
      else some 0
  | .FullHouse score, dice =>
      if 2 ∈ Rule.freq dice ∧ 3 ∈ Rule.freq dice then some score else some 0
  | .SmallStraight score, dice =>
      if 2 ∈ Rule.keys dice ∧ 4 ∈ Rule.keys dice ∧ 3 ∈ Rule.keys dice ∧
          (5 ∈ Rule.keys dice ∨ 1 ∈ Rule.keys dice) then some score
      else if 3 ∈ Rule.keys dice ∧ 4 ∈ Rule.keys dice ∧ 5 ∈ Rule.keys dice ∧
          (6 ∈ Rule.keys dice ∨ 2 ∈ Rule.keys dice) then some score
      else some 0
  | .LargeStraight score, dice =>
      if (Rule.keys dice).length = 5 ∧ (1 ∉ Rule.keys dice ∨ 6 ∉ Rule.keys dice)
      then some score else some 0
  | .Yahtzee score, dice =>
      if (Rule.freq dice).head? = some 5 then some score else some 0

/-- The 13 catalog instances constructed at the bottom of `Rules.js`. -/
def ones : GameRule := .TotalOneNumber 1

def twos : GameRule := .TotalOneNumber 2

def threes : GameRule := .TotalOneNumber 3

def fours : GameRule := .TotalOneNumber 4

def fives : GameRule := .TotalOneNumber 5

def sixes : GameRule := .TotalOneNumber 6

def threeOfKind : GameRule := .SumDistro 3

def fourOfKind : GameRule := .SumDistro 4

def fullHouse : GameRule := .FullHouse 25

def smallStraight : GameRule := .SmallStraight 30

def largeStraight : GameRule := .LargeStraight 40

def yahtzee : GameRule := .Yahtzee 50

def chance : GameRule := .SumDistro 0

/-- The full rule catalog, in export order. -/
def catalog : List GameRule :=
  [ones, twos, threes, fours, fives, sixes, threeOfKind, fourOfKind,
    fullHouse, smallStraight, largeStraight, yahtzee, chance]

/-- A well-formed hand: exactly 5 dice, each showing a face in 1–6. -/
def WellFormed (hand : List Nat) : Prop :=
  hand.length = 5 ∧ ∀ d ∈ hand, 1 ≤ d ∧ d ≤ 6

lemma WellFormed.ne_nil {hand : List Nat} (hw : WellFormed hand) : hand ≠ [] := by
  intro h
  rw [h] at hw
  simp [WellFormed] at hw

/-! ### Facts about the dice-statistics helpers -/

lemma Rule.count_eq_listCount (l : List Nat) (v : Nat) :
    Rule.count l v = l.count v := by
  unfold Rule.count
  exact (l.countP_eq_length_filter _).symm

lemma Rule.mem_keys_foldl (l acc : List Nat) (a : Nat) :
    a ∈ l.foldl (fun ks d => if d ∈ ks then ks else ks ++ [d]) acc ↔
      a ∈ acc ∨ a ∈ l := by
  induction l generalizing acc with
  | nil => simp
  | cons d t ih =>
      simp only [List.foldl_cons]
      rw [ih]
      by_cases hd : d ∈ acc
      · simp only [if_pos hd, List.mem_cons]
        constructor
        · rintro (h | h)
          · exact Or.inl h
          · exact Or.inr (Or.inr h)
        · rintro (h | rfl | h)
          · exact Or.inl h
          · exact Or.inl hd
          · exact Or.inr h
      · simp only [if_neg hd, List.mem_append, List.mem_singleton, List.mem_cons]
        tauto

lemma Rule.mem_keys (l : List Nat) (a : Nat) : a ∈ Rule.keys l ↔ a ∈ l := by
  unfold Rule.keys
  rw [Rule.mem_keys_foldl]
  simp

lemma Rule.keys_nodup_foldl (l : List Nat) (acc : List Nat) (h : acc.Nodup) :
    (l.foldl (fun ks d => if d ∈ ks then ks else ks ++ [d]) acc).Nodup := by
  induction l generalizing acc with
  | nil => simpa using h
  | cons d t ih =>
      simp only [List.foldl_cons]
      apply ih
      by_cases hd : d ∈ acc
      · simpa [if_pos hd] using h
      · rw [if_neg hd, List.nodup_append]
        refine ⟨h, List.nodup_singleton d, ?_⟩
        intro a ha had
        rw [List.mem_singleton] at had
        exact hd (had ▸ ha)

lemma Rule.keys_nodup (l : List Nat) : (Rule.keys l).Nodup :=
  Rule.keys_nodup_foldl l [] List.nodup_nil

lemma Rule.mem_freq (l : List Nat) (c : Nat) :
    c ∈ Rule.freq l ↔ ∃ v ∈ l, l.count v = c := by
  unfold Rule.freq
  simp only [List.mem_map, Rule.mem_keys]
  constructor
  · rintro ⟨v, hv, hc⟩
    exact ⟨v, hv, by rw [← hc]; exact (l.countP_eq_length_filter _)⟩
  · rintro ⟨v, hv, hc⟩
    exact ⟨v, hv, by rw [← hc]; exact (l.countP_eq_length_filter _).symm⟩

lemma Rule.keys_all_eq (l : List Nat) (v : Nat) (hne : l ≠ [])
    (hall : ∀ x ∈ l, x = v) : Rule.keys l = [v] := by
  have hvmem : v ∈ l := by
    cases l with
    | nil => exact absurd rfl hne
    | cons d t => exact (hall d (List.mem_cons_self d t)) ▸ List.mem_cons_self d t
  have hperm : (Rule.keys l).Perm [v] := by
    rw [List.perm_ext_iff_of_nodup (Rule.keys_nodup l) (List.nodup_singleton v)]
    intro a
    rw [Rule.mem_keys]
    simp only [List.mem_singleton]
    exact ⟨fun h => hall a h, fun h => h ▸ hvmem⟩
  exact List.perm_singleton.mp hperm

lemma Rule.freq_all_eq (l : List Nat) (v : Nat) (hne : l ≠ [])
    (hall : ∀ x ∈ l, x = v) : Rule.freq l = [l.length] := by
  unfold Rule.freq
  rw [Rule.keys_all_eq l v hne hall]
  simp only [List.map_cons, List.map_nil]
  congr 1
  rw [(l.countP_eq_length_filter _).symm]
  show l.count v = l.length
  exact List.count_eq_length.mpr fun b hb => (hall b hb).symm

lemma Rule.sum_eq_listSum (l : List Nat) (hne : l ≠ []) :
    Rule.sum l = some l.sum := by
  have hfold : ∀ (ds : List Nat) (d : Nat), ds.foldl (· + ·) d = d + ds.sum := by
    intro ds
    induction ds with
    | nil => intro d; simp
    | cons a t ih =>
        intro d
        rw [List.foldl_cons, ih, List.sum_cons]
        omega
  cases l with
  | nil => exact absurd rfl hne
  | cons d ds =>
      show some (ds.foldl (· + ·) d) = some (d :: ds).sum
      rw [hfold, List.sum_cons]

lemma dedup_length_one (l : List Nat) (hne : l ≠ []) :
    l.dedup.length = 1 ↔ ∃ v, ∀ x ∈ l, x = v := by
  constructor
  · intro h1
    obtain ⟨v, hv⟩ := List.length_eq_one.mp h1
    exact ⟨v, fun x hx => by
      have : x ∈ l.dedup := List.mem_dedup.mpr hx
      rw [hv] at this
      simpa using this⟩
  · rintro ⟨v, hall⟩
    have hrep : l = List.replicate l.length v :=
      List.eq_replicate_iff.mpr ⟨rfl, hall⟩
    have hlen : l.length ≠ 0 := by
      have := List.length_pos.mpr hne
      omega
    rw [hrep, List.replicate_dedup hlen]
    rfl

lemma five_mem_freq_iff (hand : List Nat) (h5 : hand.length = 5) :
    5 ∈ Rule.freq hand ↔ hand.dedup.length = 1 := by
  have hne : hand ≠ [] := by intro h; rw [h] at h5; simp at h5
  rw [Rule.mem_freq, dedup_length_one hand hne]
  constructor
  · rintro ⟨v, hv, hc⟩
    have hcl : hand.count v = hand.length := hc.trans h5.symm
    exact ⟨v, fun x hx => ((List.count_eq_length.mp hcl) x hx).symm⟩
  · rintro ⟨v, hall⟩
    have hvmem : v ∈ hand := by
      cases hand with
      | nil => exact absurd rfl hne
      | cons d t =>
          exact (hall d (List.mem_cons_self d t)) ▸ List.mem_cons_self d t
    refine ⟨v, hvmem, ?_⟩
    rw [List.count_eq_length.mpr fun b hb => (hall b hb).symm]
    exact h5

lemma freq_of_one_distinct (hand : List Nat) (h5 : hand.length = 5)
    (h1 : hand.dedup.length = 1) : Rule.freq hand = [5] := by
  have hne : hand ≠ [] := by intro h; rw [h] at h5; simp at h5
  obtain ⟨v, hall⟩ := (dedup_length_one hand hne).mp h1
  rw [Rule.freq_all_eq hand v hne hall, h5]

lemma yahtzee_head_iff (hand : List Nat) (h5 : hand.length = 5) :
    (Rule.freq hand).head? = some 5 ↔ hand.dedup.length = 1 := by
  constructor
  · intro hh
    exact (five_mem_freq_iff hand h5).mp (List.mem_of_mem_head? (by rw [hh]; rfl))
  · intro h1
    rw [freq_of_one_distinct hand h5 h1]
    rfl

/-- C1: on every well-formed hand the Yahtzee rule scores 50 exactly when
there is a single distinct face value (all five dice equal), and 0
otherwise; moreover the implementation check that the first entry of the
frequency sequence equals 5 is equivalent to the one-distinct-value
condition for every insertion order (i.e. every permutation) of the
frequency sequence. -/
theorem C1_yahtzee_rule (hand : List Nat) (hw : WellFormed hand) :
    (evalRoll yahtzee hand = some 50 ↔ hand.dedup.length = 1) ∧
    (hand.dedup.length ≠ 1 → evalRoll yahtzee hand = some 0) ∧
    (∀ l : List Nat, l.Perm (Rule.freq hand) →
      (l.head? = some 5 ↔ hand.dedup.length = 1)) := by
  obtain ⟨h5, _⟩ := hw
  have hhead := yahtzee_head_iff hand h5
  refine ⟨?_, ?_, ?_⟩
  · simp only [yahtzee, evalRoll]
    by_cases hc : (Rule.freq hand).head? = some 5
    · rw [if_pos hc]
      exact ⟨fun _ => hhead.mp hc, fun _ => rfl⟩
    · rw [if_neg hc]
      exact ⟨fun h => absurd h (by simp), fun h1 => absurd (hhead.mpr h1) hc⟩
  · intro h1
    simp only [yahtzee, evalRoll]
    rw [if_neg fun hc => h1 (hhead.mp hc)]
  · intro l hl
    constructor
    · intro hh
      have h5l : 5 ∈ l := List.mem_of_mem_head? (by rw [hh]; rfl)
      exact (five_mem_freq_iff hand h5).mp (hl.mem_iff.mp h5l)
    · intro h1
      rw [freq_of_one_distinct hand h5 h1] at hl
      rw [List.perm_singleton.mp hl]
      rfl

/-- Witness for C1: the all-sixes hand scores 50 and a broken yahtzee 0. -/
theorem C1_yahtzee_rule_witness :
    evalRoll yahtzee [6, 6, 6, 6, 6] = some 50 ∧
      evalRoll yahtzee [6, 6, 6, 6, 5] = some 0 :=
  ⟨(C1_yahtzee_rule [6, 6, 6, 6, 6] ⟨by decide, by decide⟩).1.mpr (by decide),
   (C1_yahtzee_rule [6, 6, 6, 6, 5] ⟨by decide, by decide⟩).2.1 (by decide)⟩

lemma Rule.keys_perm_dedup (l : List Nat) : (Rule.keys l).Perm l.dedup := by
  rw [List.perm_ext_iff_of_nodup (Rule.keys_nodup l) (List.nodup_dedup l)]
  intro a
  rw [Rule.mem_keys, List.mem_dedup]

lemma dedup_perm_one_to_five (hand : List Nat) (hb : ∀ d ∈ hand, 1 ≤ d ∧ d ≤ 6)
    (hlen : hand.dedup.length = 5) (h6 : 6 ∉ hand) :
    hand.dedup.Perm [1, 2, 3, 4, 5] := by
  have hsub : hand.dedup ⊆ [1, 2, 3, 4, 5] := by
    intro x hx
    have hxh : x ∈ hand := List.mem_dedup.mp hx
    have h16 := hb x hxh
    have hx6 : x ≠ 6 := fun h => h6 (h ▸ hxh)
    simp only [List.mem_cons, List.not_mem_nil, or_false]
    omega
  exact ((List.nodup_dedup hand).subperm hsub).perm_of_length_le (by simp [hlen])

lemma dedup_perm_two_to_six (hand : List Nat) (hb : ∀ d ∈ hand, 1 ≤ d ∧ d ≤ 6)
    (hlen : hand.dedup.length = 5) (h1 : 1 ∉ hand) :
    hand.dedup.Perm [2, 3, 4, 5, 6] := by
  have hsub : hand.dedup ⊆ [2, 3, 4, 5, 6] := by
    intro x hx
    have hxh : x ∈ hand := List.mem_dedup.mp hx
    have h16 := hb x hxh
    have hx1 : x ≠ 1 := fun h => h1 (h ▸ hxh)
    simp only [List.mem_cons, List.not_mem_nil, or_false]
    omega
  exact ((List.nodup_dedup hand).subperm hsub).perm_of_length_le (by simp [hlen])

/-- C2: on every well-formed hand the Large Straight rule scores 40 exactly
when the hand has 5 distinct face values and does not contain both a 1 and
a 6 — equivalently, when the distinct values are exactly 1–5 or exactly
2–6 — and 0 otherwise. -/
theorem C2_large_straight (hand : List Nat) (hw : WellFormed hand) :
    (evalRoll largeStraight hand = some 40 ↔
      (hand.dedup.length = 5 ∧ ¬(1 ∈ hand ∧ 6 ∈ hand))) ∧
    ((hand.dedup.length = 5 ∧ ¬(1 ∈ hand ∧ 6 ∈ hand)) ↔
      (hand.dedup.Perm [1, 2, 3, 4, 5] ∨ hand.dedup.Perm [2, 3, 4, 5, 6])) ∧
    (¬(hand.dedup.length = 5 ∧ ¬(1 ∈ hand ∧ 6 ∈ hand)) →
      evalRoll largeStraight hand = some 0) := by
  have hkd := Rule.keys_perm_dedup hand
  have hcond : ((Rule.keys hand).length = 5 ∧
      (1 ∉ Rule.keys hand ∨ 6 ∉ Rule.keys hand)) ↔
      (hand.dedup.length = 5 ∧ ¬(1 ∈ hand ∧ 6 ∈ hand)) := by
    rw [hkd.length_eq, Rule.mem_keys, Rule.mem_keys]
    constructor
    · rintro ⟨ha, hb⟩
      exact ⟨ha, by tauto⟩
    · rintro ⟨ha, hb⟩
      exact ⟨ha, by tauto⟩
  refine ⟨?_, ?_, ?_⟩
  · simp only [largeStraight, evalRoll]
    by_cases hc : (Rule.keys hand).length = 5 ∧
        (1 ∉ Rule.keys hand ∨ 6 ∉ Rule.keys hand)
    · rw [if_pos hc]
      exact ⟨fun _ => hcond.mp hc, fun _ => rfl⟩
    · rw [if_neg hc]
      exact ⟨fun h => absurd h (by simp),
        fun h1 => absurd (hcond.mpr h1) hc⟩
  · constructor
    · rintro ⟨hlen, hnot⟩
      by_cases h6 : 6 ∈ hand
      · have h1 : 1 ∉ hand := fun h1m => hnot ⟨h1m, h6⟩
        exact Or.inr (dedup_perm_two_to_six hand hw.2 hlen h1)
      · exact Or.inl (dedup_perm_one_to_five hand hw.2 hlen h6)
    · rintro (hp | hp)
      · refine ⟨by rw [hp.length_eq]; rfl, ?_⟩
        rintro ⟨h1m, h6m⟩
        exact absurd (hp.mem_iff.mp (List.mem_dedup.mpr h6m)) (by decide)
      · refine ⟨by rw [hp.length_eq]; rfl, ?_⟩
        rintro ⟨h1m, h6m⟩
        exact absurd (hp.mem_iff.mp (List.mem_dedup.mpr h1m)) (by decide)
  · intro h1
    simp only [largeStraight, evalRoll]
    rw [if_neg fun hc => h1 (hcond.mp hc)]

/-- Witness for C2: the two straights score 40, a four-distinct hand 0. -/
theorem C2_large_straight_witness :
    evalRoll largeStraight [1, 2, 3, 4, 5] = some 40 ∧
      evalRoll largeStraight [2, 3, 4, 5, 6] = some 40 ∧
      evalRoll largeStraight [1, 2, 3, 4, 4] = some 0 :=
  ⟨(C2_large_straight [1, 2, 3, 4, 5] ⟨by decide, by decide⟩).1.mpr (by decide),
   (C2_large_straight [2, 3, 4, 5, 6] ⟨by decide, by decide⟩).1.mpr (by decide),
   (C2_large_straight [1, 2, 3, 4, 4] ⟨by decide, by decide⟩).2.2 (by decide)⟩

/-- C3: on every well-formed hand the Small Straight rule scores 30 exactly
when the distinct values contain 2,3,4 plus one of 1,5, or contain 3,4,5
plus one of 2,6 — equivalently when one of the consecutive runs 1-2-3-4,
2-3-4-5, 3-4-5-6 is entirely present — and 0 otherwise. -/
theorem C3_small_straight (hand : List Nat) (hw : WellFormed hand) :
    (evalRoll smallStraight hand = some 30 ↔
      ((2 ∈ hand ∧ 3 ∈ hand ∧ 4 ∈ hand ∧ (1 ∈ hand ∨ 5 ∈ hand)) ∨
       (3 ∈ hand ∧ 4 ∈ hand ∧ 5 ∈ hand ∧ (2 ∈ hand ∨ 6 ∈ hand)))) ∧
    (((2 ∈ hand ∧ 3 ∈ hand ∧ 4 ∈ hand ∧ (1 ∈ hand ∨ 5 ∈ hand)) ∨
      (3 ∈ hand ∧ 4 ∈ hand ∧ 5 ∈ hand ∧ (2 ∈ hand ∨ 6 ∈ hand))) ↔
      ((1 ∈ hand ∧ 2 ∈ hand ∧ 3 ∈ hand ∧ 4 ∈ hand) ∨
       (2 ∈ hand ∧ 3 ∈ hand ∧ 4 ∈ hand ∧ 5 ∈ hand) ∨
       (3 ∈ hand ∧ 4 ∈ hand ∧ 5 ∈ hand ∧ 6 ∈ hand))) ∧
    (¬((2 ∈ hand ∧ 3 ∈ hand ∧ 4 ∈ hand ∧ (1 ∈ hand ∨ 5 ∈ hand)) ∨
       (3 ∈ hand ∧ 4 ∈ hand ∧ 5 ∈ hand ∧ (2 ∈ hand ∨ 6 ∈ hand))) →
      evalRoll smallStraight hand = some 0) := by
  refine ⟨?_, by tauto, ?_⟩
  · simp only [smallStraight, evalRoll, Rule.mem_keys]
    by_cases c1 : 2 ∈ hand ∧ 4 ∈ hand ∧ 3 ∈ hand ∧ (5 ∈ hand ∨ 1 ∈ hand)
    · rw [if_pos c1]
      exact ⟨fun _ => by tauto, fun _ => rfl⟩
    · rw [if_neg c1]
      by_cases c2 : 3 ∈ hand ∧ 4 ∈ hand ∧ 5 ∈ hand ∧ (6 ∈ hand ∨ 2 ∈ hand)
      · rw [if_pos c2]
        exact ⟨fun _ => by tauto, fun _ => rfl⟩
      · rw [if_neg c2]
        constructor
        · intro h
          exact absurd h (by simp)
        · intro hab
          exfalso
          tauto
  · intro hno
    simp only [smallStraight, evalRoll, Rule.mem_keys]
    rw [if_neg fun c1 => hno (by tauto), if_neg fun c2 => hno (by tauto)]

/-- Witness for C3: [1,2,3,4,4] scores 30 and [1,2,3,5,6] scores 0. -/
theorem C3_small_straight_witness :
    evalRoll smallStraight [1, 2, 3, 4, 4] = some 30 ∧
      evalRoll smallStraight [1, 2, 3, 5, 6] = some 0 :=
  ⟨(C3_small_straight [1, 2, 3, 4, 4] ⟨by decide, by decide⟩).1.mpr (by decide),
   (C3_small_straight [1, 2, 3, 5, 6] ⟨by decide, by decide⟩).2.2 (by decide)⟩

/-- C4: on every well-formed hand the Full House rule scores 25 exactly
when some face occurs exactly twice and some face occurs exactly three
times, and 0 otherwise (so a five-of-a-kind hand scores 0). -/
theorem C4_full_house (hand : List Nat) (hw : WellFormed hand) :
    (evalRoll fullHouse hand = some 25 ↔
      ((∃ v ∈ hand, hand.count v = 2) ∧ (∃ w ∈ hand, hand.count w = 3))) ∧
    (¬((∃ v ∈ hand, hand.count v = 2) ∧ (∃ w ∈ hand, hand.count w = 3)) →
      evalRoll fullHouse hand = some 0) := by
  have h2 := Rule.mem_freq hand 2
  have h3 := Rule.mem_freq hand 3
  constructor
  · simp only [fullHouse, evalRoll]
    by_cases hc : 2 ∈ Rule.freq hand ∧ 3 ∈ Rule.freq hand
    · rw [if_pos hc]
      exact ⟨fun _ => ⟨h2.mp hc.1, h3.mp hc.2⟩, fun _ => rfl⟩
    · rw [if_neg hc]
      exact ⟨fun h => absurd h (by simp),
        fun hab => absurd ⟨h2.mpr hab.1, h3.mpr hab.2⟩ hc⟩
  · intro h1
    simp only [fullHouse, evalRoll]
    rw [if_neg fun hc => h1 ⟨h2.mp hc.1, h3.mp hc.2⟩]

/-- Witness for C4: [2,2,3,3,3] scores 25; [2,2,2,2,2] and [2,2,3,4,5]
score 0. -/
theorem C4_full_house_witness :
    evalRoll fullHouse [2, 2, 3, 3, 3] = some 25 ∧
      evalRoll fullHouse [2, 2, 2, 2, 2] = some 0 ∧
      evalRoll fullHouse [2, 2, 3, 4, 5] = some 0 :=
  ⟨(C4_full_house [2, 2, 3, 3, 3] ⟨by decide, by decide⟩).1.mpr (by decide),
   (C4_full_house [2, 2, 2, 2, 2] ⟨by decide, by decide⟩).2 (by decide),
   (C4_full_house [2, 2, 3, 4, 5] ⟨by decide, by decide⟩).2 (by decide)⟩

lemma freq_any_iff (l : List Nat) (k : Nat) :
    ((Rule.freq l).any fun c => decide (k ≤ c)) = true ↔
      ∃ v ∈ l, k ≤ l.count v := by
  rw [List.any_eq_true]
  constructor
  · rintro ⟨c, hc, hk⟩
    obtain ⟨v, hv, hcount⟩ := (Rule.mem_freq l c).mp hc
    exact ⟨v, hv, by rw [hcount]; exact of_decide_eq_true hk⟩
  · rintro ⟨v, hv, hk⟩
    exact ⟨l.count v, (Rule.mem_freq l (l.count v)).mpr ⟨v, hv, rfl⟩,
      decide_eq_true hk⟩

/-- C5: on every well-formed hand, a Distribution Threshold Sum rule with
threshold k (3 for three-of-a-kind, 4 for four-of-a-kind, 0 for chance)
returns the sum of the dice when some face occurs at least k times —
unconditionally when k = 0 — and 0 otherwise. -/
theorem C5_sum_distro (hand : List Nat) (hw : WellFormed hand) (k : Nat)
    (hk : k = 3 ∨ k = 4 ∨ k = 0) :
    ((∃ v ∈ hand, k ≤ hand.count v) →
      evalRoll (GameRule.SumDistro k) hand = some hand.sum) ∧
    (¬(∃ v ∈ hand, k ≤ hand.count v) →
      evalRoll (GameRule.SumDistro k) hand = some 0) ∧
    (k = 0 → evalRoll (GameRule.SumDistro k) hand = some hand.sum) := by
  have hne := hw.ne_nil
  have hiff := freq_any_iff hand k
  refine ⟨?_, ?_, ?_⟩
  · intro hex
    simp only [evalRoll]
    rw [if_pos (hiff.mpr hex), Rule.sum_eq_listSum hand hne]
  · intro hnex
    simp only [evalRoll]
    rw [if_neg fun h => hnex (hiff.mp h)]
  · intro h0
    subst h0
    have hex : ∃ v ∈ hand, 0 ≤ hand.count v := by
      cases hand with
      | nil => exact absurd rfl hne
      | cons d t => exact ⟨d, List.mem_cons_self d t, Nat.zero_le _⟩
    simp only [evalRoll]
    rw [if_pos (hiff.mpr hex), Rule.sum_eq_listSum hand hne]

/-- Witness for C5: three-of-a-kind on [4,4,4,2,1] scores the sum 15, on
[4,4,3,2,1] scores 0, and chance on [4,4,3,2,1] scores the sum 14. -/
theorem C5_sum_distro_witness :
    evalRoll (GameRule.SumDistro 3) [4, 4, 4, 2, 1] = some 15 ∧
      evalRoll (GameRule.SumDistro 3) [4, 4, 3, 2, 1] = some 0 ∧
      evalRoll (GameRule.SumDistro 0) [4, 4, 3, 2, 1] = some 14 :=
  ⟨((C5_sum_distro [4, 4, 4, 2, 1] ⟨by decide, by decide⟩ 3
      (Or.inl rfl)).1 (by decide)).trans (by decide),
   (C5_sum_distro [4, 4, 3, 2, 1] ⟨by decide, by decide⟩ 3
      (Or.inl rfl)).2.1 (by decide),
   ((C5_sum_distro [4, 4, 3, 2, 1] ⟨by decide, by decide⟩ 0
      (Or.inr (Or.inr rfl))).2.2 rfl).trans (by decide)⟩

/-- C6: on every well-formed hand, the Single-Value Total rule for target
face v returns v times the number of dice equal to v. -/
theorem C6_total_one_number (hand : List Nat) (hw : WellFormed hand) (v : Nat)
    (hv : 1 ≤ v ∧ v ≤ 6) :
    evalRoll (GameRule.TotalOneNumber v) hand = some (v * hand.count v) := by
  simp only [evalRoll, Rule.count_eq_listCount]

/-- Witness for C6: the twos rule on [2,2,3,2,5] returns 6. -/
theorem C6_total_one_number_witness :
    evalRoll (GameRule.TotalOneNumber 2) [2, 2, 3, 2, 5] = some 6 :=
  (C6_total_one_number [2, 2, 3, 2, 5] ⟨by decide, by decide⟩ 2
    (by decide)).trans (by decide)

/-- Claim-level maximum possible award of each rule strategy: 30 for the
single-value and sum-based rules (five sixes), the fixed award otherwise. -/
def maxAward : GameRule → Nat
  | .TotalOneNumber _ => 30
  | .SumDistro _ => 30
  | .FullHouse score => score
  | .SmallStraight score => score
  | .LargeStraight score => score
  | .Yahtzee score => score

lemma sum_le_thirty (hand : List Nat) (hw : WellFormed hand) :
    hand.sum ≤ 30 := by
  have h := List.sum_le_card_nsmul hand 6 fun x hx => (hw.2 x hx).2
  rw [hw.1] at h
  simpa using h

lemma count_le_five (hand : List Nat) (hw : WellFormed hand) (v : Nat) :
    hand.count v ≤ 5 :=
  hw.1 ▸ hand.count_le_length v

lemma totalOneNumber_bound (v : Nat) (hv : v ≤ 6) (hand : List Nat)
    (hw : WellFormed hand) :
    ∃ n, evalRoll (GameRule.TotalOneNumber v) hand = some n ∧ n ≤ 30 := by
  refine ⟨v * Rule.count hand v, rfl, ?_⟩
  rw [Rule.count_eq_listCount]
  calc v * hand.count v ≤ 6 * 5 := Nat.mul_le_mul hv (count_le_five hand hw v)
  _ = 30 := rfl

lemma sumDistro_bound (k : Nat) (hand : List Nat) (hw : WellFormed hand) :
    ∃ n, evalRoll (GameRule.SumDistro k) hand = some n ∧ n ≤ 30 := by
  simp only [evalRoll]
  by_cases hc : ((Rule.freq hand).any fun c => decide (k ≤ c)) = true
  · rw [if_pos hc, Rule.sum_eq_listSum hand hw.ne_nil]
    exact ⟨hand.sum, rfl, sum_le_thirty hand hw⟩
  · rw [if_neg hc]
    exact ⟨0, rfl, by omega⟩

lemma fullHouse_bound (s : Nat) (hand : List Nat) :
    ∃ n, evalRoll (GameRule.FullHouse s) hand = some n ∧ n ≤ s := by
  simp only [evalRoll]
  split
  · exact ⟨s, rfl, Nat.le_refl s⟩
  · exact ⟨0, rfl, Nat.zero_le s⟩

lemma smallStraight_bound (s : Nat) (hand : List Nat) :
    ∃ n, evalRoll (GameRule.SmallStraight s) hand = some n ∧ n ≤ s := by
  simp only [evalRoll]
  split
  · exact ⟨s, rfl, Nat.le_refl s⟩
  · split
    · exact ⟨s, rfl, Nat.le_refl s⟩
    · exact ⟨0, rfl, Nat.zero_le s⟩

lemma largeStraight_bound (s : Nat) (hand : List Nat) :
    ∃ n, evalRoll (GameRule.LargeStraight s) hand = some n ∧ n ≤ s := by
  simp only [evalRoll]
  split
  · exact ⟨s, rfl, Nat.le_refl s⟩
  · exact ⟨0, rfl, Nat.zero_le s⟩

lemma yahtzeeKind_bound (s : Nat) (hand : List Nat) :
    ∃ n, evalRoll (GameRule.Yahtzee s) hand = some n ∧ n ≤ s := by
  simp only [evalRoll]
  split
  · exact ⟨s, rfl, Nat.le_refl s⟩
  · exact ⟨0, rfl, Nat.zero_le s⟩

/-- C7: every one of the 13 catalog rules returns, on any well-formed hand,
a defined score bounded by its maximum possible award (30 for the
single-value and sum-based rules, 25 for full house, 30 for small
straight, 40 for large straight, 50 for Yahtzee). -/
theorem C7_catalog_bounds (r : GameRule) (hr : r ∈ catalog) (hand : List Nat)
    (hw : WellFormed hand) :
    ∃ n, evalRoll r hand = some n ∧ n ≤ maxAward r := by
  simp only [catalog, ones, twos, threes, fours, fives, sixes, threeOfKind,
    fourOfKind, fullHouse, smallStraight, largeStraight, yahtzee, chance,
    List.mem_cons, List.not_mem_nil, or_false] at hr
  rcases hr with rfl | rfl | rfl | rfl | rfl | rfl | rfl | rfl | rfl | rfl |
    rfl | rfl | rfl
  · exact totalOneNumber_bound 1 (by omega) hand hw
  · exact totalOneNumber_bound 2 (by omega) hand hw
  · exact totalOneNumber_bound 3 (by omega) hand hw
  · exact totalOneNumber_bound 4 (by omega) hand hw
  · exact totalOneNumber_bound 5 (by omega) hand hw
  · exact totalOneNumber_bound 6 (by omega) hand hw
  · exact sumDistro_bound 3 hand hw
  · exact sumDistro_bound 4 hand hw
  · exact fullHouse_bound 25 hand
  · exact smallStraight_bound 30 hand
  · exact largeStraight_bound 40 hand
  · exact yahtzeeKind_bound 50 hand
  · exact sumDistro_bound 0 hand hw

/-- Witness for C7: the Yahtzee rule on five ones. -/
theorem C7_catalog_bounds_witness :
    ∃ n, evalRoll yahtzee [1, 1, 1, 1, 1] = some n ∧ n ≤ maxAward yahtzee :=
  C7_catalog_bounds yahtzee (by decide) [1, 1, 1, 1, 1] ⟨by decide, by decide⟩

lemma evalRoll_total (r : GameRule) (hand : List Nat) (hw : WellFormed hand) :
    ∃ n, evalRoll r hand = some n := by
  cases r with
  | TotalOneNumber v => exact ⟨_, rfl⟩
  | SumDistro k =>
      obtain ⟨n, hn, _⟩ := sumDistro_bound k hand hw
      exact ⟨n, hn⟩
  | FullHouse s =>
      obtain ⟨n, hn, _⟩ := fullHouse_bound s hand
      exact ⟨n, hn⟩
  | SmallStraight s =>
      obtain ⟨n, hn, _⟩ := smallStraight_bound s hand
      exact ⟨n, hn⟩
  | LargeStraight s =>
      obtain ⟨n, hn, _⟩ := largeStraight_bound s hand
      exact ⟨n, hn⟩
  | Yahtzee s =>
      obtain ⟨n, hn, _⟩ := yahtzeeKind_bound s hand
      exact ⟨n, hn⟩

/-- C8: the evaluation of every catalog rule is a total, deterministic function
of the hand and the fixed rule configuration alone: on a well-formed
hand it yields a defined score, and any evaluation of the same rule on the
same hand yields exactly that score. -/
theorem C8_catalog_pure (r : GameRule) (hr : r ∈ catalog) (hand : List Nat)
    (hw : WellFormed hand) :
    ∃ n, evalRoll r hand = some n ∧
      ∀ hand2 : List Nat, hand2 = hand → evalRoll r hand2 = some n := by
  obtain ⟨n, hn⟩ := evalRoll_total r hand hw
  exact ⟨n, hn, fun hand2 he => he ▸ hn⟩

/-- Witness for C8: the chance rule on [1,2,3,4,5]. -/
theorem C8_catalog_pure_witness :
    ∃ n, evalRoll chance [1, 2, 3, 4, 5] = some n ∧
      ∀ hand2 : List Nat, hand2 = [1, 2, 3, 4, 5] →
        evalRoll chance hand2 = some n :=
  C8_catalog_pure chance (by decide) [1, 2, 3, 4, 5] ⟨by decide, by decide⟩

lemma keys_perm_of_perm {h1 h2 : List Nat} (hp : h1.Perm h2) :
    (Rule.keys h1).Perm (Rule.keys h2) := by
  rw [List.perm_ext_iff_of_nodup (Rule.keys_nodup h1) (Rule.keys_nodup h2)]
  intro a
  rw [Rule.mem_keys, Rule.mem_keys]
  exact hp.mem_iff

lemma freq_perm_of_perm {h1 h2 : List Nat} (hp : h1.Perm h2) :
    (Rule.freq h1).Perm (Rule.freq h2) := by
  unfold Rule.freq
  have hmap : (Rule.keys h2).map (fun v => (h2.filter fun d => d == v).length) =
      (Rule.keys h2).map (fun v => (h1.filter fun d => d == v).length) := by
    apply List.map_congr_left
    intro a _
    have e1 : (h2.filter fun d => d == a).length = h2.count a :=
      (h2.countP_eq_length_filter _).symm
    have e2 : (h1.filter fun d => d == a).length = h1.count a :=
      (h1.countP_eq_length_filter _).symm
    rw [e1, e2, hp.count_eq]
  rw [hmap]
  exact (keys_perm_of_perm hp).map _

lemma eval_perm_totalOneNumber (v : Nat) {h1 h2 : List Nat} (hp : h1.Perm h2) :
    evalRoll (GameRule.TotalOneNumber v) h1 =
      evalRoll (GameRule.TotalOneNumber v) h2 := by
  simp only [evalRoll, Rule.count_eq_listCount]
  rw [hp.count_eq]

lemma eval_perm_sumDistro (k : Nat) {h1 h2 : List Nat} (hne : h1 ≠ [])
    (hp : h1.Perm h2) :
    evalRoll (GameRule.SumDistro k) h1 = evalRoll (GameRule.SumDistro k) h2 := by
  have hne2 : h2 ≠ [] := fun h => hne (h ▸ hp).eq_nil
  have hguard : ((Rule.freq h1).any fun c => decide (k ≤ c)) =
      ((Rule.freq h2).any fun c => decide (k ≤ c)) := by
    rw [Bool.eq_iff_iff, List.any_eq_true, List.any_eq_true]
    constructor
    · rintro ⟨c, hc, hk⟩
      exact ⟨c, (freq_perm_of_perm hp).mem_iff.mp hc, hk⟩
    · rintro ⟨c, hc, hk⟩
      exact ⟨c, (freq_perm_of_perm hp).mem_iff.mpr hc, hk⟩
  simp only [evalRoll]
  rw [hguard]
  split
  · rw [Rule.sum_eq_listSum h1 hne, Rule.sum_eq_listSum h2 hne2, hp.sum_eq]
  · rfl

lemma eval_perm_fullHouse (s : Nat) {h1 h2 : List Nat} (hp : h1.Perm h2) :
    evalRoll (GameRule.FullHouse s) h1 = evalRoll (GameRule.FullHouse s) h2 := by
  have hiff : (2 ∈ Rule.freq h1 ∧ 3 ∈ Rule.freq h1) ↔
      (2 ∈ Rule.freq h2 ∧ 3 ∈ Rule.freq h2) := by
    rw [(freq_perm_of_perm hp).mem_iff, (freq_perm_of_perm hp).mem_iff]
  simp only [evalRoll]
  rw [if_congr hiff rfl rfl]

lemma eval_perm_smallStraight (s : Nat) {h1 h2 : List Nat} (hp : h1.Perm h2) :
    evalRoll (GameRule.SmallStraight s) h1 =
      evalRoll (GameRule.SmallStraight s) h2 := by
  have m : ∀ v : Nat, (v ∈ Rule.keys h1) ↔ (v ∈ Rule.keys h2) := fun v => by
    rw [Rule.mem_keys, Rule.mem_keys]
    exact hp.mem_iff
  simp only [evalRoll]
  rw [if_congr (by rw [m 2, m 4, m 3, m 5, m 1]) rfl
    (if_congr (by rw [m 3, m 4, m 5, m 6, m 2]) rfl rfl)]

lemma eval_perm_largeStraight (s : Nat) {h1 h2 : List Nat} (hp : h1.Perm h2) :
    evalRoll (GameRule.LargeStraight s) h1 =
      evalRoll (GameRule.LargeStraight s) h2 := by
  have m : ∀ v : Nat, (v ∈ Rule.keys h1) ↔ (v ∈ Rule.keys h2) := fun v => by
    rw [Rule.mem_keys, Rule.mem_keys]
    exact hp.mem_iff
  have hlen := (keys_perm_of_perm hp).length_eq
  simp only [evalRoll]
  rw [if_congr (by rw [hlen, m 1, m 6]) rfl rfl]

lemma eval_perm_yahtzee (s : Nat) {h1 h2 : List Nat} (h5 : h1.length = 5)
    (hp : h1.Perm h2) :
    evalRoll (GameRule.Yahtzee s) h1 = evalRoll (GameRule.Yahtzee s) h2 := by
  have h52 : h2.length = 5 := by rw [← hp.length_eq]; exact h5
  have hiff : ((Rule.freq h1).head? = some 5) ↔
      ((Rule.freq h2).head? = some 5) := by
    rw [yahtzee_head_iff h1 h5, yahtzee_head_iff h2 h52, (hp.dedup).length_eq]
  simp only [evalRoll]
  rw [if_congr hiff rfl rfl]

/-- C9: every catalog rule assigns equal scores to well-formed hands that
are permutations of each other — the score depends only on the multiset of
dice — including the Yahtzee rule despite its check on the first entry of
the insertion-ordered frequency sequence. -/
theorem C9_perm_invariant (r : GameRule) (hr : r ∈ catalog)
    (h1 h2 : List Nat) (hw : WellFormed h1) (hp : h1.Perm h2) :
    evalRoll r h1 = evalRoll r h2 := by
  simp only [catalog, ones, twos, threes, fours, fives, sixes, threeOfKind,
    fourOfKind, fullHouse, smallStraight, largeStraight, yahtzee, chance,
    List.mem_cons, List.not_mem_nil, or_false] at hr
  rcases hr with rfl | rfl | rfl | rfl | rfl | rfl | rfl | rfl | rfl | rfl |
    rfl | rfl | rfl
  all_goals first
    | exact eval_perm_totalOneNumber _ hp
    | exact eval_perm_sumDistro _ hw.ne_nil hp
    | exact eval_perm_fullHouse _ hp
    | exact eval_perm_smallStraight _ hp
    | exact eval_perm_largeStraight _ hp
    | exact eval_perm_yahtzee _ hw.1 hp

/-- Witness for C9: the large straight rule scores [1,2,3,4,5] and its
reversal [5,4,3,2,1] identically. -/
theorem C9_perm_invariant_witness :
    evalRoll largeStraight [1, 2, 3, 4, 5] =
      evalRoll largeStraight [5, 4, 3, 2, 1] :=
  C9_perm_invariant largeStraight (by decide) [1, 2, 3, 4, 5] [5, 4, 3, 2, 1]
    ⟨by decide, by decide⟩ (by decide)

/-- C10: every one of the 13 catalog rules evaluates the empty hand to 0
without error — each score guard fails on the empty input before the sum
helper is invoked — while the sum helper itself is undefined on the empty
list. -/
theorem C10_empty_hand :
    (∀ r ∈ catalog, evalRoll r [] = some 0) ∧ Rule.sum [] = none := by
  constructor
  · decide
  · rfl
